import Mathlib

/-!
Shallow embedding of the degski/gmp_random pseudorandom-number generators.

The development models, limb for limb, the code in `src/gmp_random/main.cpp`
(and its near-duplicate `src/unnamed/part_000`):

* the JSF small-state rotate-and-combine generator (`jsf_detail::jsf`),
* the fixed-capacity big-integer view (`static_mpz_t`),
* the whole-state big-integer congruential generator (`GMPRng`),
* the limb-streaming big-integer congruential generator (`GMPRng2`).

Machine words of width `w` are Nats reduced modulo `2 ^ w`; GMP limbs are
Nats below `B = 2 ^ 64`.  Multi-limb numbers are little-endian `List Nat`
of limbs.  The external arbitrary-precision engine (`mpn_mul_n`, `mpn_mul`,
`mpz_add`, ...) is consumed as a capability: its calls are modelled by exact
integer arithmetic on the values the limb sequences denote, which is the
GMP contract for those entry points.  Fallible operations (the `assert`
contract checks) return `Option`, `none` marking an assertion failure.
-/

namespace GmpRandom

/-! ## Machine-word arithmetic -/

/-- Unsigned addition of `w`-bit words: `(x + y) mod 2 ^ w`. -/
def wadd (w x y : Nat) : Nat := (x + y) % 2 ^ w

/-- Unsigned subtraction of `w`-bit words (wrap-around), for `y < 2 ^ w`. -/
def wsub (w x y : Nat) : Nat := (x + (2 ^ w - y)) % 2 ^ w

/-- Left rotation of a `w`-bit word, as in the source:
`( x << k ) | ( x >> ( ITYPE_BITS - k ) )` in `w`-bit unsigned arithmetic. -/
def rotate (w x k : Nat) : Nat := ((x <<< k) % 2 ^ w) ||| (x >>> (w - k))

/-! ## JsfGenerator (`jsf_detail::jsf`) -/

/-- The four state words `a_, b_, c_, d_` of `jsf_detail::jsf`. -/
structure JsfState where
  a_ : Nat
  b_ : Nat
  c_ : Nat
  d_ : Nat
deriving Repr, DecidableEq

/-- The template parameters of `jsf_detail::jsf`: the state-word width in
bits (`ITYPE_BITS`) and the three rotation constants `p, q, r`. -/
structure JsfParams where
  w : Nat
  p : Nat
  q : Nat
  r : Nat
deriving Repr, DecidableEq

/-- One `advance ( )` step, mirroring the source's sequence of in-place
assignments: `e` is computed first, then `a_`, `b_`, `c_`, `d_` are
overwritten in that order (so `d_ = e + a_` reads the already-updated
`a_`). -/
def jsfAdvance (P : JsfParams) (s : JsfState) : JsfState :=
  let e := wsub P.w s.a_ (rotate P.w s.b_ P.p)
  let s := { s with a_ := Nat.xor s.b_ (rotate P.w s.c_ P.q) }
  let s := { s with b_ := wadd P.w s.c_ (if P.r ≠ 0 then rotate P.w s.d_ P.r else s.d_) }
  let s := { s with c_ := wadd P.w s.d_ e }
  let s := { s with d_ := wadd P.w e s.a_ }
  s

/-- `operator ( ) ( )`: advance, then return `d_` converted to the output
type of `rw` bits (`rtype ( d_ )`, an unsigned conversion, i.e. reduction
modulo `2 ^ rw`). -/
def jsfNext (P : JsfParams) (rw : Nat) (s : JsfState) : JsfState × Nat :=
  let s := jsfAdvance P s
  (s, s.d_ % 2 ^ rw)

/-- The state set up by the constructor / `seed ( )` before warm-up:
`a_ = 0xf1ea5eed` (converted to the state-word type), `b_ = c_ = d_ = seed`. -/
def jsfSeedState (P : JsfParams) (seed : Nat) : JsfState :=
  ⟨0xf1ea5eed % 2 ^ P.w, seed, seed, seed⟩

/-- The constructor `jsf ( seed )`: initialise the four words, then run the
warm-up loop of 20 `advance ( )` calls. -/
def jsfMk (P : JsfParams) (seed : Nat) : JsfState :=
  (jsfAdvance P)^[20] (jsfSeedState P seed)

/-- The member function `seed ( value )`: same body as the constructor. -/
def jsfSeedFn (P : JsfParams) (seed : Nat) : JsfState :=
  (jsfAdvance P)^[20] (jsfSeedState P seed)

/-! ## Limbs -/

/-- The limb base: `mp_limb_t` is a 64-bit machine word. -/
def B : Nat := 2 ^ 64

/-- The little-endian `len`-limb representation of `n` (truncating above
`B ^ len`), i.e. the contents an `mpn_` routine leaves in a `len`-limb
destination holding the value `n mod B ^ len`. -/
def limbsOf : Nat → Nat → List Nat
  | _, 0 => []
  | n, len + 1 => n % B :: limbsOf (n / B) len

/-- The value denoted by a little-endian limb sequence. -/
def valOfLimbs (l : List Nat) : Nat := l.foldr (fun x acc => x + B * acc) 0

/-- Set the least-significant bit of the first limb of a limb sequence
(the effect of `*reinterpret_cast<std::uint8_t *> ( _mp_d ) |= 0b0000'0001`
on a little-endian machine). -/
def setLowBit : List Nat → List Nat
  | [] => []
  | x :: xs => (x ||| 1) :: xs

/-- Clear the least-significant bit of the first limb of a limb sequence
(the effect of `*reinterpret_cast<std::uint8_t *> ( _mp_d ) &= 0b1111'1110`
on a little-endian machine): `x / 2 * 2` is `x` with bit 0 cleared. -/
def clearLowBit : List Nat → List Nat
  | [] => []
  | x :: xs => (x / 2 * 2) :: xs

/-! ## static_mpz_t -/

/-- The non-owning big-integer view `static_mpz_t`: a capacity `_mp_alloc`,
a logical size `_mp_size`, and the backing limb storage reached through
`_mp_d` — `none` models a null pointer (no backing storage), `some d`
models a pointer to storage whose limbs from the view's base are `d`. -/
structure static_mpz_t where
  _mp_alloc : Nat
  _mp_size : Nat
  _mp_d : Option (List Nat)
deriving Repr, DecidableEq

namespace static_mpz_t

/-- The value of the view's logical range: the first `_mp_size` limbs of the
backing storage, read as a little-endian number (what the `mpz_` engine sees
when the view is reinterpreted as an `mpz_t`). -/
def val (v : static_mpz_t) : Nat := valOfLimbs ((v._mp_d.getD []).take v._mp_size)

/-- `randomize ( gen_, size_ )`: asserts backing storage and
`size_ <= _mp_alloc`; sets `_mp_size` to `size_` when nonzero and to the
capacity otherwise, then overwrites the first `_mp_size` limbs with words
drawn from the generator.  The word generator is modelled as the sequence
`gen : Nat → Nat` of the words it hands out, one per filled position. -/
def randomize (v : static_mpz_t) (gen : Nat → Nat) (size : Nat) : Option static_mpz_t :=
  match v._mp_d with
  | none => none
  | some d =>
    if size ≤ v._mp_alloc then
      let n := if size = 0 then v._mp_alloc else size
      some { v with _mp_size := n, _mp_d := some ((List.range n).map gen ++ d.drop n) }
    else none

/-- `make_odd ( )`: asserts `_mp_size` nonzero, then forces bit 0 of the
least-significant byte of the stored value to `1`. -/
def make_odd (v : static_mpz_t) : Option static_mpz_t :=
  if v._mp_size = 0 then none
  else some { v with _mp_d := v._mp_d.map setLowBit }

/-- `make_even ( )`: asserts `_mp_size` nonzero, then forces bit 0 of the
least-significant byte of the stored value to `0`. -/
def make_even (v : static_mpz_t) : Option static_mpz_t :=
  if v._mp_size = 0 then none
  else some { v with _mp_d := v._mp_d.map clearLowBit }

/-- `resize ( size_ )`: asserts backing storage and `size_ <= _mp_alloc`,
then sets `_mp_size = size_` — the storage itself is untouched. -/
def resize (v : static_mpz_t) (size : Nat) : Option static_mpz_t :=
  match v._mp_d with
  | none => none
  | some _ => if size ≤ v._mp_alloc then some { v with _mp_size := size } else none

/-- `operator+=`: asserts both views are backed, then delegates to the
engine's `mpz_add` on the two logical values. -/
def addAssign (l r : static_mpz_t) : Option Int :=
  match l._mp_d, r._mp_d with
  | some _, some _ => some ((l.val : Int) + (r.val : Int))
  | _, _ => none

/-- `operator-=`: asserts both views are backed, then delegates to the
engine's `mpz_sub` on the two logical values. -/
def subAssign (l r : static_mpz_t) : Option Int :=
  match l._mp_d, r._mp_d with
  | some _, some _ => some ((l.val : Int) - (r.val : Int))
  | _, _ => none

/-- `operator*=`: asserts both views are backed, then delegates to the
engine's `mpz_mul` on the two logical values. -/
def mulAssign (l r : static_mpz_t) : Option Int :=
  match l._mp_d, r._mp_d with
  | some _, some _ => some ((l.val : Int) * (r.val : Int))
  | _, _ => none

/-- `operator/=`: asserts both views are backed and additionally
`rhs_._mp_d[ 0 ]` nonzero (the low limb of the divisor's storage), then
delegates to the engine's `mpz_div` on the two logical values. -/
def divAssign (l r : static_mpz_t) : Option Int :=
  match l._mp_d, r._mp_d with
  | some _, some rd =>
    if rd.headD 0 = 0 then none
    else some ((l.val : Int) / (r.val : Int))
  | _, _ => none

end static_mpz_t

/-! ## GMPRng (whole-state big-integer congruential generator)

`GMPRng<S>` keeps an `S`-limb state in a `2 * S`-limb buffer and an `S`-limb
odd multiplier.  Each `operator ( ) ( )` call writes the full `2 * S`-limb
product `state * multiplier` into the spare buffer (`mpn_mul_n`), swaps the
buffer pointers, copies the product's limb window `[S-1, 2*S-1)` to the
front of the now-active buffer (`std::copy_n`), and returns the state view
(still of logical size `S`) over that window. -/

/-- The persistent state of a `GMPRng<S>` instance: the `S` limbs of the
current state and the `S` limbs of the fixed multiplier.  Buffer pointers
are not represented: the ping-pong swap is a no-copy implementation detail
and the observable state is the `S`-limb window the state view denotes. -/
structure GMPRng where
  state : List Nat
  multiplier : List Nat
deriving Repr, DecidableEq

/-- The limbs of the next state of `GMPRng<S>`: the `2 * S`-limb product of
the current state and the multiplier (`mpn_mul_n`), from which
`std::copy_n ( _state._mp_d + ( S - 1 ), S, _state._mp_d )` keeps the limb
window starting at `S - 1` of length `S`. -/
def gmpRngStepLimbs (S : Nat) (state multiplier : List Nat) : List Nat :=
  let product := limbsOf (valOfLimbs state * valOfLimbs multiplier) (2 * S)
  (product.drop (S - 1)).take S

/-- `GMPRng<S>::operator ( ) ( )`: replace the state by the product window
and return it (the returned `static_mpz_t &` denotes the new state). -/
def GMPRng.step (S : Nat) (g : GMPRng) : GMPRng × List Nat :=
  let next := gmpRngStepLimbs S g.state g.multiplier
  ({ g with state := next }, next)

/-- The `GMPRng ( )` constructor: randomize `S` state limbs and force the
state odd, randomize the full `S`-limb multiplier and force it odd.  The
entropy source `Rng::gen ( )` is modelled by the two word sequences
`fs` (state draws) and `fm` (multiplier draws). -/
def gmpRngNew (S : Nat) (fs fm : Nat → Nat) : GMPRng :=
  { state := setLowBit ((List.range S).map fs),
    multiplier := setLowBit ((List.range S).map fm) }

/-- Iterated output steps of `GMPRng<S>`, discarding the returned values. -/
def GMPRng.iterSteps (S n : Nat) (g : GMPRng) : GMPRng :=
  (fun g => (GMPRng.step S g).1)^[n] g

/-! ## GMPRng2 (limb-streaming big-integer congruential generator)

`GMPRng2<S>` keeps its `S`-limb state at offset `S - 1` of a `2 * S`-limb
buffer, plus a limb cursor `_limb ∈ [0, S]`.  `advance ( )` computes
`mpn_mul ( _destination - ( S - 1 ) + ( S - used ), _state._mp_d, S,
_multiplier_storage.data ( ), used )` with `used = 2`: the `(S + 2)`-limb
product of the state with the low two limbs of the multiplier, placed one
limb below the state window, so the new state window holds the product's
limbs `[1, S + 1)`; the buffer pointers are then swapped and the cursor set
to 1.  `operator ( ) ( )` streams `_state._mp_d[ _limb++ ]` until the
cursor reaches `S`, then refreshes and returns limb 0 of the new state. -/

/-- The persistent state of a `GMPRng2<S>` instance: the `S` state limbs in
the active window, the `S` multiplier limbs, and the cursor `_limb`. -/
structure GMPRng2 where
  state : List Nat
  multiplier : List Nat
  _limb : Nat
deriving Repr, DecidableEq

/-- `GMPRng2<S>::advance ( )`: with `used = 2`, multiply the `S`-limb state
by the low `used` limbs of the multiplier (an `(S + used)`-limb product
written `used - 1` limbs below the state window) and swap buffers, so the
new state window reads the product's limbs starting at `used - 1`; the
cursor is set to 1. -/
def GMPRng2.advance (S : Nat) (g : GMPRng2) : GMPRng2 :=
  let used := 2
  let product := valOfLimbs g.state * valOfLimbs (g.multiplier.take used)
  { g with state := limbsOf (product / B ^ (used - 1)) S, _limb := 1 }

/-- `GMPRng2<S>::operator ( ) ( )`: if the cursor has not reached `S`,
return the cursor's limb of the current state and advance the cursor;
otherwise refresh with `advance ( )` (which sets the cursor to 1) and
return limb 0 of the refreshed state. -/
def GMPRng2.next (S : Nat) (g : GMPRng2) : GMPRng2 × Nat :=
  if g._limb ≠ S then
    ({ g with _limb := g._limb + 1 }, g.state.getD g._limb 0)
  else
    let g := GMPRng2.advance S g
    (g, g.state.getD 0 0)

/-- The `GMPRng2 ( )` constructor: randomize `S` state limbs (at offset
`S - 1` of the buffer) and force the state odd, randomize the full `S`-limb
multiplier and force it odd; the cursor starts at 0. -/
def gmpRng2New (S : Nat) (fs fm : Nat → Nat) : GMPRng2 :=
  { state := setLowBit ((List.range S).map fs),
    multiplier := setLowBit ((List.range S).map fm),
    _limb := 0 }

/-- Iterated output calls of `GMPRng2<S>`, discarding the returned words. -/
def GMPRng2.iterSteps (S n : Nat) (g : GMPRng2) : GMPRng2 :=
  (fun g => (GMPRng2.next S g).1)^[n] g

/-- The words returned by `n` successive `operator ( ) ( )` calls on a
`GMPRng2<S>`, together with the instance they leave behind. -/
def GMPRng2.collect (S : Nat) : Nat → GMPRng2 → List Nat × GMPRng2
  | 0, g => ([], g)
  | n + 1, g =>
    let step := GMPRng2.next S g
    let rest := GMPRng2.collect S n step.1
    (step.2 :: rest.1, rest.2)

/-! `GMPRng2<S>::operator==` is written `return ( _state == rhs_._state );`,
but `static_mpz_t` declares no equality operator, so that member function is
ill-formed whenever it is instantiated (the program only compiles because
`Generator = jsf64` and the comparison is never used); it has no semantics
to embed and is therefore not modelled here. -/

/-! ## Helper lemmas about limb sequences -/

theorem B_pos : 0 < B := by norm_num [B]

theorem valOfLimbs_nil : valOfLimbs [] = 0 := rfl

theorem valOfLimbs_cons (x : Nat) (l : List Nat) :
    valOfLimbs (x :: l) = x + B * valOfLimbs l := rfl

theorem limbsOf_length (n len : Nat) : (limbsOf n len).length = len := by
  induction len generalizing n with
  | zero => rfl
  | succ k ih => simp [limbsOf, ih]

theorem valOfLimbs_limbsOf (n len : Nat) : valOfLimbs (limbsOf n len) = n % B ^ len := by
  induction len generalizing n with
  | zero => simp [limbsOf, valOfLimbs, Nat.mod_one]
  | succ k ih =>
    rw [limbsOf, valOfLimbs_cons, ih, pow_succ' B k, Nat.mod_mul]

theorem limbsOf_drop (k n len : Nat) :
    (limbsOf n len).drop k = limbsOf (n / B ^ k) (len - k) := by
  induction k generalizing n len with
  | zero => simp
  | succ j ih =>
    cases len with
    | zero => simp [limbsOf]
    | succ m =>
      rw [limbsOf, List.drop_succ_cons, ih]
      congr 1
      · rw [Nat.div_div_eq_div_mul, ← pow_succ' B j]
      · omega

theorem limbsOf_take (k n len : Nat) :
    (limbsOf n len).take k = limbsOf n (min k len) := by
  induction k generalizing n len with
  | zero => simp [limbsOf]
  | succ j ih =>
    cases len with
    | zero => simp [limbsOf]
    | succ m =>
      rw [limbsOf, List.take_succ_cons, ih, Nat.succ_min_succ, limbsOf]

theorem valOfLimbs_lt (l : List Nat) (h : ∀ x ∈ l, x < B) :
    valOfLimbs l < B ^ l.length := by
  induction l with
  | nil => simp [valOfLimbs]
  | cons x xs ih =>
    have hx : x < B := h x (by simp)
    have hxs : valOfLimbs xs < B ^ xs.length := ih (fun y hy => h y (by simp [hy]))
    have hchain : valOfLimbs (x :: xs) < B ^ (xs.length + 1) := by
      calc valOfLimbs (x :: xs) = x + B * valOfLimbs xs := rfl
      _ < B + B * valOfLimbs xs := Nat.add_lt_add_right hx _
      _ = B * (valOfLimbs xs + 1) := by rw [Nat.mul_succ, Nat.add_comm]
      _ ≤ B * B ^ xs.length := Nat.mul_le_mul_left B hxs
      _ = B ^ (xs.length + 1) := (pow_succ' B xs.length).symm
    simpa using hchain

theorem valOfLimbs_take (l : List Nat) (k : Nat) (h : ∀ x ∈ l, x < B) :
    valOfLimbs (l.take k) = valOfLimbs l % B ^ k := by
  induction l generalizing k with
  | nil => simp [valOfLimbs]
  | cons x xs ih =>
    cases k with
    | zero => simp [valOfLimbs, Nat.mod_one]
    | succ j =>
      have hx : x < B := h x (by simp)
      have hrec := ih j (fun y hy => h y (by simp [hy]))
      have hmod : (x + B * valOfLimbs xs) % B = x := by
        rw [Nat.add_mul_mod_self_left, Nat.mod_eq_of_lt hx]
      have hdiv : (x + B * valOfLimbs xs) / B = valOfLimbs xs := by
        rw [Nat.add_mul_div_left _ _ B_pos, Nat.div_eq_of_lt hx, Nat.zero_add]
      calc valOfLimbs ((x :: xs).take (j + 1))
          = x + B * valOfLimbs (xs.take j) := rfl
      _ = x + B * (valOfLimbs xs % B ^ j) := by rw [hrec]
      _ = (x + B * valOfLimbs xs) % B ^ (j + 1) := by
          rw [pow_succ' B j, Nat.mod_mul, hmod, hdiv]

theorem gmpRngStepLimbs_eq (S : Nat) (hS : 0 < S) (st mu : List Nat) :
    gmpRngStepLimbs S st mu =
      limbsOf (valOfLimbs st * valOfLimbs mu / B ^ (S - 1)) S := by
  show ((limbsOf (valOfLimbs st * valOfLimbs mu) (2 * S)).drop (S - 1)).take S = _
  rw [limbsOf_drop, limbsOf_take]
  congr 1
  omega

/-! ## Helper lemmas about single bits -/

theorem testBit_or_one_zero (x : Nat) : (x ||| 1).testBit 0 = true := by
  rw [Nat.testBit_or]
  simp [Nat.testBit_zero]

theorem testBit_or_one_pos (x i : Nat) (hi : 0 < i) :
    (x ||| 1).testBit i = x.testBit i := by
  obtain ⟨j, rfl⟩ : ∃ j, i = j + 1 := ⟨i - 1, by omega⟩
  rw [Nat.testBit_or]
  have h1 : (1 : Nat).testBit (j + 1) = false := by
    rw [Nat.testBit_succ]
    norm_num
  rw [h1, Bool.or_false]

theorem testBit_clear_zero (x : Nat) : (x / 2 * 2).testBit 0 = false := by
  rw [Nat.testBit_zero]
  simp [Nat.mul_mod_left]

theorem testBit_clear_pos (x i : Nat) (hi : 0 < i) :
    (x / 2 * 2).testBit i = x.testBit i := by
  obtain ⟨j, rfl⟩ : ∃ j, i = j + 1 := ⟨i - 1, by omega⟩
  rw [Nat.testBit_succ, Nat.testBit_succ, Nat.mul_div_cancel _ (by norm_num : 0 < 2)]

theorem or_one_mod_two (x : Nat) : (x ||| 1) % 2 = 1 := by
  have h := testBit_or_one_zero x
  rw [Nat.testBit_zero] at h
  exact of_decide_eq_true h

theorem setLowBit_headD_odd (l : List Nat) (h : l ≠ []) :
    (setLowBit l).headD 0 % 2 = 1 := by
  cases l with
  | nil => exact absurd rfl h
  | cons x xs => exact or_one_mod_two x

theorem range_map_ne_nil (n : Nat) (h : 0 < n) (f : Nat → Nat) :
    (List.range n).map f ≠ [] := by
  intro hnil
  have := congrArg List.length hnil
  simp at this
  omega

/-! ## Helper lemmas about the generators -/

theorem gmpRng_step_multiplier (S : Nat) (g : GMPRng) :
    (GMPRng.step S g).1.multiplier = g.multiplier := rfl

theorem gmpRng_iterSteps_multiplier (S n : Nat) (g : GMPRng) :
    (GMPRng.iterSteps S n g).multiplier = g.multiplier := by
  induction n with
  | zero => rfl
  | succ m ih =>
    rw [GMPRng.iterSteps, Function.iterate_succ_apply']
    rw [GMPRng.iterSteps] at ih
    exact (gmpRng_step_multiplier S _).trans ih

theorem gmpRng2_next_multiplier (S : Nat) (g : GMPRng2) :
    (GMPRng2.next S g).1.multiplier = g.multiplier := by
  unfold GMPRng2.next GMPRng2.advance
  split <;> rfl

theorem gmpRng2_iterSteps_multiplier (S n : Nat) (g : GMPRng2) :
    (GMPRng2.iterSteps S n g).multiplier = g.multiplier := by
  induction n with
  | zero => rfl
  | succ m ih =>
    rw [GMPRng2.iterSteps, Function.iterate_succ_apply']
    rw [GMPRng2.iterSteps] at ih
    exact (gmpRng2_next_multiplier S _).trans ih

theorem collect_succ (S m : Nat) (g : GMPRng2) :
    GMPRng2.collect S (m + 1) g =
      ((GMPRng2.next S g).2 :: (GMPRng2.collect S m (GMPRng2.next S g).1).1,
       (GMPRng2.collect S m (GMPRng2.next S g).1).2) := rfl

theorem collect_streaming (S : Nat) : ∀ (k : Nat) (g : GMPRng2),
    g.state.length = S → g._limb + k ≤ S →
    (GMPRng2.collect S k g).1 = (g.state.drop g._limb).take k ∧
    (GMPRng2.collect S k g).2 = { g with _limb := g._limb + k } := by
  intro k
  induction k with
  | zero =>
    intro g hlen hle
    refine ⟨rfl, ?_⟩
    show g = { g with _limb := g._limb + 0 }
    rfl
  | succ m ih =>
    intro g hlen hle
    have hne : g._limb ≠ S := by omega
    have hlt : g._limb < g.state.length := by omega
    have hnext : GMPRng2.next S g =
        ({ g with _limb := g._limb + 1 }, g.state.getD g._limb 0) := by
      unfold GMPRng2.next
      simp [hne]
    have ihh := ih { g with _limb := g._limb + 1 } hlen
      (by show g._limb + 1 + m ≤ S; omega)
    rw [collect_succ, hnext]
    constructor
    · show g.state.getD g._limb 0 :: (GMPRng2.collect S m { g with _limb := g._limb + 1 }).1 = _
      rw [ihh.1]
      show g.state.getD g._limb 0 :: (g.state.drop (g._limb + 1)).take m = _
      rw [List.drop_eq_getElem_cons hlt, List.take_succ_cons,
        List.getD_eq_getElem g.state 0 hlt]
    · show (GMPRng2.collect S m { g with _limb := g._limb + 1 }).2 = _
      rw [ihh.2]
      show { g with _limb := g._limb + 1 + m } = { g with _limb := g._limb + (m + 1) }
      rw [show g._limb + 1 + m = g._limb + (m + 1) from by omega]

theorem collect_cycle (S : Nat) (hS : 0 < S) (st mu : List Nat) :
    (GMPRng2.collect S S ⟨st, mu, S⟩).1 = (GMPRng2.advance S ⟨st, mu, S⟩).state := by
  obtain ⟨m, rfl⟩ : ∃ m, S = m + 1 := ⟨S - 1, by omega⟩
  have hadv : GMPRng2.advance (m + 1) ⟨st, mu, m + 1⟩ =
      ⟨limbsOf (valOfLimbs st * valOfLimbs (mu.take 2) / B ^ 1) (m + 1), mu, 1⟩ := rfl
  have hlen : (limbsOf (valOfLimbs st * valOfLimbs (mu.take 2) / B ^ 1) (m + 1)).length
      = m + 1 := limbsOf_length _ _
  have hfirst : GMPRng2.next (m + 1) ⟨st, mu, m + 1⟩ =
      (GMPRng2.advance (m + 1) ⟨st, mu, m + 1⟩,
       (GMPRng2.advance (m + 1) ⟨st, mu, m + 1⟩).state.getD 0 0) := by
    unfold GMPRng2.next
    simp
  rw [collect_succ, hfirst, hadv]
  set ns := limbsOf (valOfLimbs st * valOfLimbs (mu.take 2) / B ^ 1) (m + 1) with hns
  have hcoll := collect_streaming (m + 1) m ⟨ns, mu, 1⟩ hlen
    (by show 1 + m ≤ m + 1; omega)
  show ns.getD 0 0 :: (GMPRng2.collect (m + 1) m ⟨ns, mu, 1⟩).1 = ns
  rw [hcoll.1]
  show ns.getD 0 0 :: (ns.drop 1).take m = ns
  cases hcase : ns with
  | nil => rw [hcase] at hlen; simp at hlen
  | cons y ys =>
    have hys : ys.length = m := by
      rw [hcase] at hlen
      simpa using hlen
    simp [← hys]

/-! ## The claims -/

/-- Claim C3: one output step of the JSF generator mutates the state by
exactly `e = a - rotl(b,p); a = b xor rotl(c,q); b = c + (r ? rotl(d,r) : d);
c = d + e; d = e + a` (all modulo `2 ^ w`, with `d` reading the updated `a`),
and returns the new `d` converted to the `rw`-bit output type. -/
theorem jsf_step_equations (P : JsfParams) (rw : Nat) (s : JsfState) :
    jsfNext P rw s =
      (⟨Nat.xor s.b_ (rotate P.w s.c_ P.q),
        wadd P.w s.c_ (if P.r ≠ 0 then rotate P.w s.d_ P.r else s.d_),
        wadd P.w s.d_ (wsub P.w s.a_ (rotate P.w s.b_ P.p)),
        wadd P.w (wsub P.w s.a_ (rotate P.w s.b_ P.p))
          (Nat.xor s.b_ (rotate P.w s.c_ P.q))⟩,
       wadd P.w (wsub P.w s.a_ (rotate P.w s.b_ P.p))
         (Nat.xor s.b_ (rotate P.w s.c_ P.q)) % 2 ^ rw) := rfl

/-- Claim C4: for every seed (including zero), both the constructor and
`seed ( value )` set `a = 0xf1ea5eed`, `b = c = d = value`, and then perform
exactly 20 warm-up advances before the first output can be produced (the
hypothesis states that the constant fits the state-word width, as it does
for the 32- and 64-bit instantiations). -/
theorem jsf_seed_warmup (P : JsfParams) (seed : Nat) (h : 0xf1ea5eed < 2 ^ P.w) :
    jsfMk P seed = (jsfAdvance P)^[20] ⟨0xf1ea5eed, seed, seed, seed⟩ ∧
    jsfSeedFn P seed = jsfMk P seed := by
  constructor
  · unfold jsfMk jsfSeedState
    rw [Nat.mod_eq_of_lt h]
  · rfl

/-- Witness for C4 at the `jsf32na` parameters and seed 0. -/
theorem jsf_seed_warmup_witness :
    0xf1ea5eed < 2 ^ (32 : Nat) ∧
    (jsfMk ⟨32, 27, 17, 0⟩ 0 = (jsfAdvance ⟨32, 27, 17, 0⟩)^[20] ⟨0xf1ea5eed, 0, 0, 0⟩ ∧
     jsfSeedFn ⟨32, 27, 17, 0⟩ 0 = jsfMk ⟨32, 27, 17, 0⟩ 0) :=
  ⟨by norm_num, jsf_seed_warmup ⟨32, 27, 17, 0⟩ 0 (by norm_num)⟩

/-- Claim C2: one output step of `GMPRng<S>` computes the full `2S`-limb
product of the current state and the fixed multiplier (the product fits in
`2S` limbs), replaces the state with exactly the limb window `[S-1, 2S-1)`
of that product, and returns that window; on values the new state is
`state * multiplier / B ^ (S-1) mod B ^ S`. -/
theorem gmpRng_step_window (S : Nat) (g : GMPRng)
    (hS : 0 < S) (hE : 2 ∣ S)
    (hsl : g.state.length = S) (hml : g.multiplier.length = S)
    (hsb : ∀ x ∈ g.state, x < B) (hmb : ∀ x ∈ g.multiplier, x < B) :
    valOfLimbs g.state * valOfLimbs g.multiplier < B ^ (2 * S) ∧
    (GMPRng.step S g).2 = (GMPRng.step S g).1.state ∧
    (GMPRng.step S g).1.state =
      ((limbsOf (valOfLimbs g.state * valOfLimbs g.multiplier) (2 * S)).drop (S - 1)).take S ∧
    valOfLimbs (GMPRng.step S g).1.state =
      valOfLimbs g.state * valOfLimbs g.multiplier / B ^ (S - 1) % B ^ S := by
  have h1 : valOfLimbs g.state < B ^ S := by
    rw [← hsl]; exact valOfLimbs_lt g.state hsb
  have h2 : valOfLimbs g.multiplier < B ^ S := by
    rw [← hml]; exact valOfLimbs_lt g.multiplier hmb
  have hbound : valOfLimbs g.state * valOfLimbs g.multiplier < B ^ (2 * S) := by
    calc valOfLimbs g.state * valOfLimbs g.multiplier
        < B ^ S * B ^ S := mul_lt_mul'' h1 h2 (Nat.zero_le _) (Nat.zero_le _)
    _ = B ^ (2 * S) := by rw [← pow_add]; congr 1; omega
  refine ⟨hbound, rfl, rfl, ?_⟩
  show valOfLimbs (gmpRngStepLimbs S g.state g.multiplier) = _
  rw [gmpRngStepLimbs_eq S hS, valOfLimbs_limbsOf]

/-- Witness for C2 at `S = 2`, state `[1, 1]`, multiplier `[3, 0]`. -/
theorem gmpRng_step_window_witness :
    ((0 : Nat) < 2 ∧ (2 : Nat) ∣ 2 ∧
      (GMPRng.mk [1, 1] [3, 0]).state.length = 2 ∧
      (GMPRng.mk [1, 1] [3, 0]).multiplier.length = 2 ∧
      (∀ x ∈ (GMPRng.mk [1, 1] [3, 0]).state, x < B) ∧
      (∀ x ∈ (GMPRng.mk [1, 1] [3, 0]).multiplier, x < B)) ∧
    valOfLimbs (GMPRng.step 2 (GMPRng.mk [1, 1] [3, 0])).1.state =
      valOfLimbs (GMPRng.mk [1, 1] [3, 0]).state *
        valOfLimbs (GMPRng.mk [1, 1] [3, 0]).multiplier / B ^ (2 - 1) % B ^ 2 :=
  ⟨⟨by norm_num, by norm_num, rfl, rfl, by decide, by decide⟩,
   (gmpRng_step_window 2 (GMPRng.mk [1, 1] [3, 0]) (by norm_num) (by norm_num) rfl rfl
      (by decide) (by decide)).2.2.2⟩

/-- Claim C5: immediately after constructing either big-integer generator
the least-significant bit of the multiplier's lowest limb is 1, and no
number of subsequent output steps modifies any limb of the multiplier. -/
theorem multiplier_odd_invariant (S n : Nat) (fs fm : Nat → Nat) (hS : 0 < S) :
    (gmpRngNew S fs fm).multiplier.headD 0 % 2 = 1 ∧
    (GMPRng.iterSteps S n (gmpRngNew S fs fm)).multiplier = (gmpRngNew S fs fm).multiplier ∧
    (gmpRng2New S fs fm).multiplier.headD 0 % 2 = 1 ∧
    (GMPRng2.iterSteps S n (gmpRng2New S fs fm)).multiplier = (gmpRng2New S fs fm).multiplier := by
  have hne := range_map_ne_nil S hS fm
  exact ⟨setLowBit_headD_odd _ hne, gmpRng_iterSteps_multiplier S n _,
    setLowBit_headD_odd _ hne, gmpRng2_iterSteps_multiplier S n _⟩

/-- Witness for C5 at `S = 2`, constant-zero entropy, 3 output steps. -/
theorem multiplier_odd_invariant_witness :
    (0 : Nat) < 2 ∧
    ((gmpRngNew 2 (fun _ => 0) (fun _ => 0)).multiplier.headD 0 % 2 = 1 ∧
     (GMPRng.iterSteps 2 3 (gmpRngNew 2 (fun _ => 0) (fun _ => 0))).multiplier =
       (gmpRngNew 2 (fun _ => 0) (fun _ => 0)).multiplier ∧
     (gmpRng2New 2 (fun _ => 0) (fun _ => 0)).multiplier.headD 0 % 2 = 1 ∧
     (GMPRng2.iterSteps 2 3 (gmpRng2New 2 (fun _ => 0) (fun _ => 0))).multiplier =
       (gmpRng2New 2 (fun _ => 0) (fun _ => 0)).multiplier) :=
  ⟨by norm_num, multiplier_odd_invariant 2 3 (fun _ => 0) (fun _ => 0) (by norm_num)⟩

/-- Counterexample to C6 as stated: `resize` also grows the logical size —
on a view of capacity 4 and logical size 1, `resize ( 3 )` succeeds and sets
the logical size to 3, which is not fewer limbs than the current size. -/
theorem resize_grow_cex :
    static_mpz_t.resize ⟨4, 1, some [0, 0, 0, 0]⟩ 3 = some ⟨4, 3, some [0, 0, 0, 0]⟩ ∧
    ¬ (3 ≤ 1) := by decide

/-- Claim C6 (amended): `resize ( size )` reinterprets the same storage as
holding `size` limbs — whether fewer or more than the current logical size —
and succeeds exactly when the view is backed and `size` does not exceed the
capacity (failing by assertion otherwise). -/
theorem resize_spec (v : static_mpz_t) (s : Nat) :
    static_mpz_t.resize v s = some { v with _mp_size := s } ↔
      v._mp_d.isSome = true ∧ s ≤ v._mp_alloc := by
  rcases v with ⟨a, sz, d⟩
  cases d with
  | none => simp [static_mpz_t.resize]
  | some l =>
    by_cases hs : s ≤ a
    · simp [static_mpz_t.resize, hs]
    · simp [static_mpz_t.resize, hs]

/-- Claim C7: on a backed view of nonzero logical size, `make_odd ( )` sets
bit 0 of the least-significant limb and `make_even ( )` clears it, in both
cases leaving every other bit of that limb and every other limb unchanged;
both operations fail by assertion when the logical size is zero. -/
theorem make_parity_spec (v : static_mpz_t) (l0 : Nat) (rest : List Nat)
    (hd : v._mp_d = some (l0 :: rest)) (hs : 0 < v._mp_size) :
    static_mpz_t.make_odd v = some { v with _mp_d := some ((l0 ||| 1) :: rest) } ∧
    (l0 ||| 1).testBit 0 = true ∧
    (∀ i, 0 < i → (l0 ||| 1).testBit i = l0.testBit i) ∧
    static_mpz_t.make_even v = some { v with _mp_d := some (l0 / 2 * 2 :: rest) } ∧
    (l0 / 2 * 2).testBit 0 = false ∧
    (∀ i, 0 < i → (l0 / 2 * 2).testBit i = l0.testBit i) ∧
    (∀ w : static_mpz_t, w._mp_size = 0 →
      static_mpz_t.make_odd w = none ∧ static_mpz_t.make_even w = none) := by
  have hsz : ¬ v._mp_size = 0 := by omega
  refine ⟨?_, testBit_or_one_zero l0, fun i hi => testBit_or_one_pos l0 i hi, ?_,
    testBit_clear_zero l0, fun i hi => testBit_clear_pos l0 i hi, ?_⟩
  · unfold static_mpz_t.make_odd
    rw [if_neg hsz, hd]
    rfl
  · unfold static_mpz_t.make_even
    rw [if_neg hsz, hd]
    rfl
  · intro w hw
    unfold static_mpz_t.make_odd static_mpz_t.make_even
    rw [if_pos hw, if_pos hw]
    exact ⟨rfl, rfl⟩

/-- Witness for C7 on the view `⟨2, 1, some [2, 5]⟩`. -/
theorem make_parity_witness :
    ((⟨2, 1, some [2, 5]⟩ : static_mpz_t)._mp_d = some (2 :: [5]) ∧
      0 < (⟨2, 1, some [2, 5]⟩ : static_mpz_t)._mp_size) ∧
    static_mpz_t.make_odd ⟨2, 1, some [2, 5]⟩ = some ⟨2, 1, some [2 ||| 1, 5]⟩ :=
  ⟨⟨rfl, by norm_num⟩, (make_parity_spec ⟨2, 1, some [2, 5]⟩ 2 [5] rfl (by norm_num)).1⟩

/-- Claim C8: on backed views the compound assignments delegate to the
external arbitrary-precision engine on the views' logical values, and
`operator/=` fails by assertion exactly when the divisor's low storage limb
is zero. -/
theorem arith_delegate (l r : static_mpz_t) (ld : List Nat) (r0 : Nat) (rrest : List Nat)
    (hl : l._mp_d = some ld) (hr : r._mp_d = some (r0 :: rrest)) :
    static_mpz_t.addAssign l r = some ((l.val : Int) + (r.val : Int)) ∧
    static_mpz_t.subAssign l r = some ((l.val : Int) - (r.val : Int)) ∧
    static_mpz_t.mulAssign l r = some ((l.val : Int) * (r.val : Int)) ∧
    (static_mpz_t.divAssign l r = none ↔ r0 = 0) ∧
    (r0 ≠ 0 → static_mpz_t.divAssign l r = some ((l.val : Int) / (r.val : Int))) := by
  refine ⟨?_, ?_, ?_, ?_, ?_⟩
  · unfold static_mpz_t.addAssign
    rw [hl, hr]
  · unfold static_mpz_t.subAssign
    rw [hl, hr]
  · unfold static_mpz_t.mulAssign
    rw [hl, hr]
  · unfold static_mpz_t.divAssign
    rw [hl, hr]
    show (if (r0 :: rrest).headD 0 = 0 then none
      else some ((l.val : Int) / (r.val : Int))) = none ↔ r0 = 0
    by_cases h0 : r0 = 0
    · simp [h0]
    · simp [h0]
  · intro h0
    unfold static_mpz_t.divAssign
    rw [hl, hr]
    show (if (r0 :: rrest).headD 0 = 0 then none
      else some ((l.val : Int) / (r.val : Int))) = some ((l.val : Int) / (r.val : Int))
    simp [h0]

/-- Witness for C8 on the views `⟨2, 1, some [5, 0]⟩` and `⟨2, 1, some [3, 0]⟩`. -/
theorem arith_delegate_witness :
    ((⟨2, 1, some [5, 0]⟩ : static_mpz_t)._mp_d = some [5, 0] ∧
      (⟨2, 1, some [3, 0]⟩ : static_mpz_t)._mp_d = some (3 :: [0])) ∧
    static_mpz_t.addAssign ⟨2, 1, some [5, 0]⟩ ⟨2, 1, some [3, 0]⟩ =
      some (((⟨2, 1, some [5, 0]⟩ : static_mpz_t).val : Int) +
        ((⟨2, 1, some [3, 0]⟩ : static_mpz_t).val : Int)) :=
  ⟨⟨rfl, rfl⟩, (arith_delegate ⟨2, 1, some [5, 0]⟩ ⟨2, 1, some [3, 0]⟩ [5, 0] 3 [0] rfl rfl).1⟩

/-- Claim C10: `randomize ( gen, 0 )` on a backed view interprets the
explicit size argument 0 as "use capacity": the logical size becomes the
capacity and every limb of the backing storage up to the capacity is
overwritten with a word drawn from the supplied generator. -/
theorem randomize_zero_fills (v : static_mpz_t) (gen : Nat → Nat) (d : List Nat)
    (hd : v._mp_d = some d) (hlen : d.length = v._mp_alloc) :
    static_mpz_t.randomize v gen 0 =
      some ⟨v._mp_alloc, v._mp_alloc, some ((List.range v._mp_alloc).map gen)⟩ ∧
    (∀ i, i < v._mp_alloc → ((List.range v._mp_alloc).map gen).getD i 0 = gen i) := by
  constructor
  · unfold static_mpz_t.randomize
    rw [hd]
    show (if 0 ≤ v._mp_alloc then
        let n := if 0 = 0 then v._mp_alloc else 0
        some { v with _mp_size := n,
                      _mp_d := some ((List.range n).map gen ++ d.drop n) }
      else none) = _
    rw [if_pos (Nat.zero_le v._mp_alloc)]
    show some { v with
                _mp_size := v._mp_alloc,
                _mp_d := some ((List.range v._mp_alloc).map gen ++ d.drop v._mp_alloc) } = _
    rw [← hlen, List.drop_length, List.append_nil]
  · intro i hi
    have hi2 : i < ((List.range v._mp_alloc).map gen).length := by simp [hi]
    rw [List.getD_eq_getElem _ 0 hi2]
    simp

/-- Witness for C10 on the view `⟨3, 0, some [9, 9, 9]⟩`. -/
theorem randomize_zero_fills_witness :
    ((⟨3, 0, some [9, 9, 9]⟩ : static_mpz_t)._mp_d = some [9, 9, 9] ∧
      ([9, 9, 9] : List Nat).length = (⟨3, 0, some [9, 9, 9]⟩ : static_mpz_t)._mp_alloc) ∧
    static_mpz_t.randomize ⟨3, 0, some [9, 9, 9]⟩ (fun i => i + 1) 0 =
      some ⟨3, 3, some ((List.range 3).map (fun i => i + 1))⟩ :=
  ⟨⟨rfl, rfl⟩,
   (randomize_zero_fills ⟨3, 0, some [9, 9, 9]⟩ (fun i => i + 1) [9, 9, 9] rfl rfl).1⟩

/-- Counterexample to C1 as stated: at `S = 4`, starting both generators
from state `[1, 0, 0, 1]` and multiplier `[1, 0, 1, 0]` (both odd), the
four limbs streamed by `GMPRng2` over one refresh cycle are `[0, 0, 1, 0]`
while the state `GMPRng` produces for the same step is `[1, 0, 1, 0]`:
streaming is not a lossless decomposition of the whole-state step, because
`GMPRng2::advance` multiplies by only the low two limbs of the multiplier
and keeps the product window `[1, S+1)` instead of `[S-1, 2S-1)`. -/
theorem streaming_vs_whole_cex :
    (GMPRng2.collect 4 4 ⟨[1, 0, 0, 1], [1, 0, 1, 0], 4⟩).1 = [0, 0, 1, 0] ∧
    (GMPRng.step 4 ⟨[1, 0, 0, 1], [1, 0, 1, 0]⟩).1.state = [1, 0, 1, 0] ∧
    (GMPRng2.collect 4 4 ⟨[1, 0, 0, 1], [1, 0, 1, 0], 4⟩).1 ≠
      (GMPRng.step 4 ⟨[1, 0, 0, 1], [1, 0, 1, 0]⟩).1.state := by
  decide

/-- Claim C1 (amended): collecting the `S` limbs of one refresh cycle of
`GMPRng2` yields exactly the `S`-limb state its own refresh step produces,
whose value is `state * (multiplier mod B^2) / B mod B^S` — the limb window
`[1, S+1)` of the product of the state with the low two limbs of the
multiplier; this coincides with the `GMPRng` step when `S = 2`, but not for
every even `S`. -/
theorem streaming_cycle_amended (S : Nat) (st mu : List Nat)
    (hS : 0 < S) (hE : 2 ∣ S) (hsl : st.length = S) (hml : mu.length = S)
    (hmb : ∀ x ∈ mu, x < B) :
    (GMPRng2.collect S S ⟨st, mu, S⟩).1 = (GMPRng2.advance S ⟨st, mu, S⟩).state ∧
    valOfLimbs (GMPRng2.advance S ⟨st, mu, S⟩).state =
      valOfLimbs st * (valOfLimbs mu % B ^ 2) / B % B ^ S ∧
    (S = 2 → (GMPRng2.advance S ⟨st, mu, S⟩).state = gmpRngStepLimbs S st mu) := by
  have hadv : (GMPRng2.advance S ⟨st, mu, S⟩).state =
      limbsOf (valOfLimbs st * valOfLimbs (mu.take 2) / B ^ 1) S := rfl
  refine ⟨collect_cycle S hS st mu, ?_, ?_⟩
  · rw [hadv, valOfLimbs_limbsOf, valOfLimbs_take mu 2 hmb, pow_one]
  · intro h2
    subst h2
    rw [hadv, gmpRngStepLimbs_eq 2 (by norm_num) st mu]
    congr 1
    rw [valOfLimbs_take mu 2 hmb]
    have hlt : valOfLimbs mu < B ^ 2 := by
      rw [← hml]; exact valOfLimbs_lt mu hmb
    rw [Nat.mod_eq_of_lt hlt]

/-- Witness for the amended C1 at `S = 2`, state `[1, 1]`, multiplier `[3, 0]`. -/
theorem streaming_cycle_amended_witness :
    ((0 : Nat) < 2 ∧ (2 : Nat) ∣ 2 ∧ ([1, 1] : List Nat).length = 2 ∧
      ([3, 0] : List Nat).length = 2 ∧ (∀ x ∈ ([3, 0] : List Nat), x < B)) ∧
    ((GMPRng2.collect 2 2 ⟨[1, 1], [3, 0], 2⟩).1 =
        (GMPRng2.advance 2 ⟨[1, 1], [3, 0], 2⟩).state ∧
      valOfLimbs (GMPRng2.advance 2 ⟨[1, 1], [3, 0], 2⟩).state =
        valOfLimbs [1, 1] * (valOfLimbs [3, 0] % B ^ 2) / B % B ^ 2 ∧
      (2 = 2 → (GMPRng2.advance 2 ⟨[1, 1], [3, 0], 2⟩).state =
        gmpRngStepLimbs 2 [1, 1] [3, 0])) :=
  ⟨⟨by norm_num, by norm_num, rfl, rfl, by decide⟩,
   streaming_cycle_amended 2 [1, 1] [3, 0] (by norm_num) (by norm_num) rfl rfl (by decide)⟩

end GmpRandom
